import Mathlib

/-!
Verification of the tiedot query processor (`db/query.go`).

The query evaluator is embedded shallowly: JSON-decoded query expressions
become the inductive `JsonVal`, the mutable result map `*map[int]struct{}`
becomes an explicitly threaded `Finset Int`, and Go's `(err error)` return
becomes the second component `Option QueryError` of each operator's result.
The external collaborators consumed by the evaluator (partitioned hash
index shards, document reads, path-value extraction, the string hash) are
fields of the `Col` structure, mirroring the interfaces of the spec.
-/

namespace DB

/-- A JSON-decoded value as produced by Go's `encoding/json` into
`interface{}`: `nil`, `bool`, `float64` (numbers, always truncated to
integers before use by the evaluator, so modelled as `Int`), `string`,
`[]interface{}` and `map[string]interface{}` (modelled as an association
list, since Go map keys are unique and looked up one key at a time). -/
inductive JsonVal where
  | null : JsonVal
  | bool (b : Bool) : JsonVal
  | num (n : Int) : JsonVal
  | str (s : String) : JsonVal
  | arr (elems : List JsonVal) : JsonVal
  | obj (fields : List (String × JsonVal)) : JsonVal

/-- Go map read `expr[key]` with its presence bit: first binding wins. -/
def lookupField : List (String × JsonVal) → String → Option JsonVal
  | [], _ => none
  | (k, v) :: rest, key => if k = key then some v else lookupField rest key

theorem sizeOf_lt_of_mem_elems {x : JsonVal} {xs : List JsonVal}
    (h : x ∈ xs) : sizeOf x < sizeOf xs := by
  induction xs with
  | nil => cases h
  | cons y ys ih =>
    cases h with
    | head => simp only [List.cons.sizeOf_spec]; omega
    | tail _ h2 => have := ih h2; simp only [List.cons.sizeOf_spec]; omega

theorem sizeOf_snd_lt_of_mem {k : String} {v : JsonVal}
    {fields : List (String × JsonVal)} (h : (k, v) ∈ fields) :
    sizeOf v < sizeOf fields := by
  induction fields with
  | nil => cases h
  | cons p ps ih =>
    obtain ⟨pk, pv⟩ := p
    cases h with
    | head => simp only [List.cons.sizeOf_spec, Prod.mk.sizeOf_spec]; omega
    | tail _ h2 => have := ih h2; simp only [List.cons.sizeOf_spec]; omega

theorem sizeOf_lookupField {fields : List (String × JsonVal)} {key : String}
    {v : JsonVal} (h : lookupField fields key = some v) :
    sizeOf v < sizeOf fields := by
  induction fields with
  | nil => simp [lookupField] at h
  | cons p ps ih =>
    obtain ⟨pk, pv⟩ := p
    rw [lookupField] at h
    by_cases hk : pk = key
    · simp only [hk, if_pos rfl] at h
      cases h
      simp only [List.cons.sizeOf_spec, Prod.mk.sizeOf_spec]
      omega
    · simp only [if_neg hk] at h
      have := ih h
      simp only [List.cons.sizeOf_spec]
      omega

/-- Modelled from the spec: the string form of a value, Go's `fmt.Sprint`
(standard library, outside the repository). Scalars follow Go exactly:
numbers print in decimal, booleans as `true`/`false`, `nil` as `<nil>`,
strings as themselves; composites are bracketed space-joined renderings. -/
def sprint : JsonVal → String
  | .null => "<nil>"
  | .bool b => if b then "true" else "false"
  | .num n => toString n
  | .str s => s
  | .arr elems =>
      "[" ++ String.intercalate " "
        (elems.attach.map (fun x => sprint x.1)) ++ "]"
  | .obj fields =>
      "map[" ++ String.intercalate " "
        (fields.attach.map (fun p => p.1.1 ++ ":" ++ sprint p.1.2)) ++ "]"
termination_by v => sizeOf v
decreasing_by
  · have h1 := sizeOf_lt_of_mem_elems x.2
    simp only [JsonVal.arr.sizeOf_spec]
    omega
  · have h1 := sizeOf_snd_lt_of_mem (k := p.1.1) (v := p.1.2) (by simpa using p.2)
    simp only [JsonVal.obj.sizeOf_spec]
    omega

/-- The error values of `db/query.go`, one constructor per `Error` variable;
payloads are the `Fault` format arguments (as the dynamic values Go prints). -/
inductive QueryError where
  | missingLookUp : QueryError
  | expectingLookup (given : JsonVal) : QueryError
  | expectingNumber (given : JsonVal) : QueryError
  | needIndex (path given : JsonVal) : QueryError
  | expectingPath (given : JsonVal) : QueryError
  | expectingPathIn (given : JsonVal) : QueryError
  | expectingSubQuery (given : JsonVal) : QueryError
  | missingPath : QueryError
  | expectingInt (field : String) (given : Int) : QueryError
  | missing (field : String) : QueryError
  | invalidPKID (given : String) : QueryError
  | noOP (given : JsonVal) : QueryError

/-- Modelled from the spec: one shard of a Partitioned Hash Index.
`get hash limit` returns the stored document IDs for an exact hash key
(capped at `limit` when positive); `getPartition i n` returns the IDs of
the i-th of n equal sub-slices of the shard's key space. Acquiring and
releasing the shard's read lock brackets each access in the Go code and
has no effect on the values read, so it is not modelled. -/
structure HT where
  get : Nat → Int → List Int
  getPartition : Nat → Nat → List Int

/-- Modelled from the spec: the Collection Accessor and its database. The
evaluator consumes `numParts` (shard count), `strHash` (the data layer's
string hash), `indexPaths` (the indexed-path set), `hts part path` (the
shard of index `path` in partition `part`), `read` (document retrieval,
`none` on failure), `getIn` (path-value extraction from a document),
`docs` (the id/document pairs that `forEachDoc` visits) and
`approxDocCount`. -/
structure Col where
  numParts : Nat
  strHash : String → Nat
  indexPaths : List String
  hts : Nat → String → HT
  read : Int → Option JsonVal
  getIn : JsonVal → List String → List JsonVal
  docs : List (Int × JsonVal)
  approxDocCount : Nat

/-- Modelled from the spec: the fixed separator joining path segments into
an index key (the data layer's `INDEX_PATH_SEP`, a comma — `IntRange`
hard-codes the same comma inline). -/
def INDEX_PATH_SEP : String := ","

/-- The result map `*map[int]struct{}` threaded through evaluation. -/
abbrev ResultSet := Finset Int

/-- The shared `limit` parsing of Lookup / PathExistence / IntRange:
absent means 0, a number is truncated to `int`, anything else is
`ErrorExpectingNumber`. -/
def parseLimit (expr : List (String × JsonVal)) : Except QueryError Int :=
  match lookupField expr "limit" with
  | none => .ok 0
  | some (.num n) => .ok n
  | some other => .error (.expectingNumber other)

/-- Decimal digit run to a natural number. -/
def digitsVal (cs : List Char) : Nat :=
  cs.foldl (fun a c => a * 10 + (c.toNat - 48)) 0

/-- Go's `strconv.ParseInt(s, 10, 64)`: optional sign, nonempty digit run,
must fit in int64 (out of range is an error, and the evaluator turns any
error into `ErrorInvalidPKID`). -/
def parseInt64 (s : String) : Option Int :=
  let signed : Bool × List Char :=
    match s.data with
    | '+' :: rest => (false, rest)
    | '-' :: rest => (true, rest)
    | cs => (false, cs)
  let ds := signed.2
  if ds = [] then none
  else if ds.all Char.isDigit then
    let v : Int := (digitsVal ds : Nat)
    let v := if signed.1 then -v else v
    if v < -(2 ^ 63) ∨ 2 ^ 63 - 1 < v then none else some v
  else none

/-- `EvalAllIDs`: put all document IDs into result (the iteration callback
always returns `true`, so every document is visited; the function always
returns a nil error). -/
def EvalAllIDs (src : Col) (result : ResultSet) : ResultSet :=
  src.docs.foldl (fun r p => insert p.1 r) result

/-- The collision-filter loop body of `Lookup`: for one candidate `m`,
re-read the document; on read success insert `m` once per extracted value
whose string form equals the target's (a read failure drops the candidate
silently). -/
def lookupFilter (src : Col) (vecPath : List String) (lookupStrValue : String)
    (result : ResultSet) (m : Int) : ResultSet :=
  match src.read m with
  | some doc =>
      (src.getIn doc vecPath).foldl
        (fun r v => if sprint v = lookupStrValue then insert m r else r) result
  | none => result

/-- `Lookup`: value equality check via hash lookup with collision filter. -/
def Lookup (lookupValue : JsonVal) (expr : List (String × JsonVal))
    (src : Col) (result : ResultSet) : ResultSet × Option QueryError :=
  match lookupField expr "in" with
  | none => (result, some .missingLookUp)
  | some path =>
    match path with
    | .arr vecPathInterface =>
      let vecPath := vecPathInterface.map sprint
      match parseLimit expr with
      | .error e => (result, some e)
      | .ok intLimit =>
        let lookupStrValue := sprint lookupValue
        let lookupValueHash := src.strHash lookupStrValue
        let scanPath := String.intercalate INDEX_PATH_SEP vecPath
        if scanPath ∈ src.indexPaths then
          let num := lookupValueHash % src.numParts
          let ht := src.hts num scanPath
          let vals := ht.get lookupValueHash intLimit
          (vals.foldl (lookupFilter src vecPath lookupStrValue) result, none)
        else (result, some (.needIndex (.str scanPath) (.obj expr)))
    | _ => (result, some (.expectingLookup path))

/-- The innermost `PathExistence` loop over one sub-slice's IDs: each ID is
inserted and counted; when the counter becomes equal to the limit the whole
scan stops (third component `true`) with a nil error. -/
def peAddIds (ids : List Int) (intLimit counter : Int) (result : ResultSet) :
    ResultSet × Int × Bool :=
  match ids with
  | [] => (result, counter, false)
  | id :: rest =>
      let result2 := insert id result
      let counter2 := counter + 1
      if counter2 = intLimit then (result2, counter2, true)
      else peAddIds rest intLimit counter2 result2

/-- The `PathExistence` loop over one shard's `partDiv` sub-slices. -/
def peSlices (ht : HT) (partDiv : Nat) (slices : List Nat)
    (intLimit counter : Int) (result : ResultSet) : ResultSet × Int × Bool :=
  match slices with
  | [] => (result, counter, false)
  | i :: rest =>
      let ids := ht.getPartition i partDiv
      let out := peAddIds ids intLimit counter result
      if out.2.2 then out
      else peSlices ht partDiv rest intLimit out.2.1 out.1

/-- The `PathExistence` loop over all shards. -/
def peParts (src : Col) (jointPath : String) (partDiv : Nat)
    (parts : List Nat) (intLimit counter : Int) (result : ResultSet) :
    ResultSet × Int × Bool :=
  match parts with
  | [] => (result, counter, false)
  | p :: rest =>
      let ht := src.hts p jointPath
      let out := peSlices ht partDiv (List.range partDiv) intLimit counter result
      if out.2.2 then out
      else peParts src jointPath partDiv rest intLimit out.2.1 out.1

/-- `partDiv` as computed by `PathExistence`: aim at roughly 4000 IDs per
sub-slice, bumped to 1 when the integer division yields 0. -/
def pePartDiv (src : Col) : Nat :=
  let partDiv := src.approxDocCount / src.numParts / 4000
  if partDiv = 0 then partDiv + 1 else partDiv

/-- `PathExistence`: value existence check via full index scan in
sub-slices; always returns a nil error once the scan starts (both the
early-stop exit and the natural exit return nil). -/
def PathExistence (hasPath : JsonVal) (expr : List (String × JsonVal))
    (src : Col) (result : ResultSet) : ResultSet × Option QueryError :=
  match hasPath with
  | .arr vecPathInterface =>
    let vecPath := vecPathInterface.map sprint
    match parseLimit expr with
    | .error e => (result, some e)
    | .ok intLimit =>
      let jointPath := String.intercalate INDEX_PATH_SEP vecPath
      if jointPath ∈ src.indexPaths then
        ((peParts src jointPath (pePartDiv src) (List.range src.numParts)
            intLimit 0 result).1, none)
      else (result, some (.needIndex (.arr (vecPath.map .str)) (.obj expr)))
  | _ => (result, some (.expectingPath hasPath))

/-- `Col.hashScan`: shard-routed hash-key read shared by `IntRange`. -/
def Col.hashScan (src : Col) (idxName : String) (key : Nat) (limit : Int) :
    List Int :=
  (src.hts (key % src.numParts) idxName).get key limit

/-- The inner `IntRange` loop over one integer's matches: before each
insertion, a positive limit already reached breaks out of the current match
list only (the counter keeps its value for the remaining integers). -/
def irAdd (vals : List Int) (intLimit counter : Int) (result : ResultSet) :
    ResultSet × Int :=
  match vals with
  | [] => (result, counter)
  | docID :: rest =>
      if intLimit > 0 ∧ counter = intLimit then (result, counter)
      else irAdd rest intLimit (counter + 1) (insert docID result)

/-- The outer `IntRange` loop over the integers of the range, in scan
order: hash each integer's decimal form and read its shard. -/
def irScan (src : Col) (htPath : String) (values : List Int)
    (intLimit counter : Int) (result : ResultSet) : ResultSet × Int :=
  match values with
  | [] => (result, counter)
  | v :: rest =>
      let hashValue := src.strHash (toString v)
      let vals := src.hashScan htPath hashValue intLimit
      let out := irAdd vals intLimit counter result
      irScan src htPath rest intLimit out.2 out.1

/-- The ascending scan order `lookupValue := from; lookupValue <= to;
lookupValue++`. -/
def ascValues (lo hi : Int) : List Int :=
  (List.range (hi - lo + 1).toNat).map (fun (i : Nat) => lo + (i : Int))

/-- The descending scan order `lookupValue := from; lookupValue >= to;
lookupValue--`. -/
def descValues (hi lo : Int) : List Int :=
  (List.range (hi - lo + 1).toNat).map (fun (i : Nat) => hi - (i : Int))

/-- `IntRange`: indexed integer range scan. Note the Go code joins the path
with a literal comma here, and reports `ErrorExpectingInt` with the
not-yet-assigned zero value of the bound variable; the advisory log line
for ranges above 1000 values has no effect on the result and is not
modelled. -/
def IntRange (intFrom : JsonVal) (expr : List (String × JsonVal))
    (src : Col) (result : ResultSet) : ResultSet × Option QueryError :=
  match lookupField expr "in" with
  | none => (result, some .missingPath)
  | some path =>
    match path with
    | .arr vecPathInterface =>
      let vecPath := vecPathInterface.map sprint
      match parseLimit expr with
      | .error e => (result, some e)
      | .ok intLimit =>
        match intFrom with
        | .num fromVal =>
          let toRes : Except QueryError Int :=
            match lookupField expr "int-to" with
            | some (.num n) => .ok n
            | some _ => .error (.expectingInt "int-to" 0)
            | none =>
              match lookupField expr "int to" with
              | some (.num n) => .ok n
              | some _ => .error (.expectingInt "int-to" 0)
              | none => .error (.missing "int-to")
          match toRes with
          | .error e => (result, some e)
          | .ok toVal =>
            let htPath := String.intercalate "," vecPath
            if htPath ∈ src.indexPaths then
              let values := if fromVal < toVal then ascValues fromVal toVal
                            else descValues fromVal toVal
              ((irScan src htPath values intLimit 0 result).1, none)
            else (result, some (.needIndex (.arr (vecPath.map .str)) (.obj expr)))
        | _ => (result, some (.expectingInt "int-from" 0))
    | _ => (result, some (.expectingPathIn path))

mutual

/-- `evalQuery`: dispatch on the expression's dynamic shape. A sequence is
a union; a string is `"all"` or a single document PK; a map is checked for
the operation keys in order `eq`, `has`, `n`, `c`, `int-from`, `int from`;
any other shape (number, boolean, null) falls through the type switch and
returns a nil error with the result untouched. The schema lock taken by
the exported entry point has no effect on the computed result and is not
modelled. -/
def evalQuery (q : JsonVal) (src : Col) (result : ResultSet) :
    ResultSet × Option QueryError :=
  match q with
  | .arr exprs => EvalUnion exprs src result
  | .str s =>
      if s = "all" then (EvalAllIDs src result, none)
      else
        match parseInt64 s with
        | none => (result, some (.invalidPKID s))
        | some docID => (insert docID result, none)
  | .obj fields =>
      match h1 : lookupField fields "eq" with
      | some lookupValue => Lookup lookupValue fields src result
      | none =>
        match h2 : lookupField fields "has" with
        | some hasPath => PathExistence hasPath fields src result
        | none =>
          match h3 : lookupField fields "n" with
          | some subExprs => Intersect subExprs src result
          | none =>
            match h4 : lookupField fields "c" with
            | some subExprs => Complement subExprs src result
            | none =>
              match h5 : lookupField fields "int-from" with
              | some intFrom => IntRange intFrom fields src result
              | none =>
                match h6 : lookupField fields "int from" with
                | some intFrom => IntRange intFrom fields src result
                | none => (result, some (.noOP (.obj fields)))
  | _ => (result, none)
termination_by sizeOf q
decreasing_by
  · simp only [JsonVal.arr.sizeOf_spec]; omega
  · have := sizeOf_lookupField h3
    simp only [JsonVal.obj.sizeOf_spec]; omega
  · have := sizeOf_lookupField h4
    simp only [JsonVal.obj.sizeOf_spec]; omega

/-- `EvalUnion`: evaluate every sub-expression against the same result
set; the first error aborts and propagates, keeping what was added. -/
def EvalUnion (exprs : List JsonVal) (src : Col) (result : ResultSet) :
    ResultSet × Option QueryError :=
  match exprs with
  | [] => (result, none)
  | subExpr :: rest =>
      let out := evalQuery subExpr src result
      match out.2 with
      | some e => (out.1, some e)
      | none => EvalUnion rest src out.1
termination_by sizeOf exprs

/-- `Intersect`: requires a vector of sub-queries, else
`ErrorExpectingSubQuery`. -/
def Intersect (subExprs : JsonVal) (src : Col) (result : ResultSet) :
    ResultSet × Option QueryError :=
  match subExprs with
  | .arr subExprVecs => intersectLoop subExprVecs src result true
  | _ => (result, some (.expectingSubQuery subExprs))
termination_by sizeOf subExprs

/-- The `Intersect` loop: each sub-expression is evaluated into a fresh
empty set; the first successful one replaces the running result outright,
later ones intersect into it; an error returns with the running result as
it stands. -/
def intersectLoop (exprs : List JsonVal) (src : Col) (result : ResultSet)
    (first : Bool) : ResultSet × Option QueryError :=
  match exprs with
  | [] => (result, none)
  | subExpr :: rest =>
      let out := evalQuery subExpr src (∅ : ResultSet)
      match out.2 with
      | some e => (result, some e)
      | none =>
          if first then intersectLoop rest src out.1 false
          else intersectLoop rest src (result ∩ out.1) false
termination_by sizeOf exprs

/-- `Complement`: requires a vector of sub-queries, else
`ErrorExpectingSubQuery`. -/
def Complement (subExprs : JsonVal) (src : Col) (result : ResultSet) :
    ResultSet × Option QueryError :=
  match subExprs with
  | .arr subExprVecs => complementLoop subExprVecs src result
  | _ => (result, some (.expectingSubQuery subExprs))
termination_by sizeOf subExprs

/-- The `Complement` loop: each sub-expression is evaluated into a fresh
empty set and the running result is replaced by the two-sided difference
(the keys of exactly one of the two sets); an error returns with the
running result as it stands. -/
def complementLoop (exprs : List JsonVal) (src : Col) (result : ResultSet) :
    ResultSet × Option QueryError :=
  match exprs with
  | [] => (result, none)
  | subExpr :: rest =>
      let out := evalQuery subExpr src (∅ : ResultSet)
      match out.2 with
      | some e => (result, some e)
      | none => complementLoop rest src ((out.1 \ result) ∪ (result \ out.1))
termination_by sizeOf exprs

end

/-- `EvalQuery`: the exported entry point takes the schema read lock and
delegates; the lock does not change the computed result, so the model is
the recursive evaluator itself. -/
def EvalQuery (q : JsonVal) (src : Col) (result : ResultSet) :
    ResultSet × Option QueryError :=
  evalQuery q src result

/-- The IDs of the full index scan that `PathExistence` traverses, in
traversal order: shards in partition order, each shard's sub-slices in
order. -/
def peAllIds (src : Col) (jointPath : String) : List Int :=
  (List.range src.numParts).flatMap (fun p =>
    (List.range (pePartDiv src)).flatMap (fun i =>
      (src.hts p jointPath).getPartition i (pePartDiv src)))

/-- An expression that contains no intersection (`n`) or complement (`c`)
operation at any level: its evaluation only ever inserts into the result
set (the spec-side restriction under which Union is monotone). -/
def additive : JsonVal → Bool
  | .arr elems => elems.attach.all (fun x => additive x.1)
  | .obj fields =>
      match lookupField fields "eq" with
      | some _ => true
      | none =>
        match lookupField fields "has" with
        | some _ => true
        | none =>
          match lookupField fields "n" with
          | some _ => false
          | none =>
            match lookupField fields "c" with
            | some _ => false
            | none => true
  | _ => true
termination_by v => sizeOf v
decreasing_by
  · have h1 := sizeOf_lt_of_mem_elems x.2
    simp only [JsonVal.arr.sizeOf_spec]
    omega

/-- A collection with one partition, nothing indexed, nothing stored. -/
def trivCol : Col :=
  { numParts := 1, strHash := fun _ => 0, indexPaths := [],
    hts := fun _ _ => ⟨fun _ _ => [], fun _ _ => []⟩,
    read := fun _ => none, getIn := fun _ _ => [], docs := [],
    approxDocCount := 0 }

/-- A collection for exercising `Lookup`: path `a` is indexed, the index
returns candidates 1 and 9 for every hash, document 1 reads back as the
number 2, document 9 fails to read. -/
def col5 : Col :=
  { numParts := 1, strHash := fun _ => 0, indexPaths := ["a"],
    hts := fun _ _ => ⟨fun _ _ => [1, 9], fun _ _ => []⟩,
    read := fun id => if id = 1 then some (.num 2) else none,
    getIn := fun doc _ => [doc], docs := [], approxDocCount := 3 }

/-- A collection for exercising `IntRange`: path `a` is indexed and every
hash key stores the two documents 4 and 5. -/
def col6 : Col :=
  { numParts := 1, strHash := fun _ => 0, indexPaths := ["a"],
    hts := fun _ _ => ⟨fun _ _ => [4, 5], fun _ _ => []⟩,
    read := fun _ => none, getIn := fun _ _ => [], docs := [],
    approxDocCount := 2 }

/-- A collection for exercising `IntRange` scan direction: path `a` is
indexed and hash key `k` stores exactly document `k` (the hash of a digit
string is its length-weighted value below). -/
def col7 : Col :=
  { numParts := 1, strHash := fun s => s.length, indexPaths := ["a"],
    hts := fun _ _ => ⟨fun k _ => [(k : Int)], fun _ _ => []⟩,
    read := fun _ => none, getIn := fun _ _ => [], docs := [],
    approxDocCount := 2 }

/-- A collection for exercising `PathExistence`: two partitions, one
sub-slice each (`approxDocCount` 0 forces `partDiv` 1), holding documents
1, 2 and 11, 12. -/
def col8 : Col :=
  { numParts := 2, strHash := fun _ => 0, indexPaths := ["a"],
    hts := fun p _ => ⟨fun _ _ => [],
      fun _ _ => if p = 0 then [1, 2] else [11, 12]⟩,
    read := fun _ => none, getIn := fun _ _ => [], docs := [],
    approxDocCount := 0 }

theorem foldl_insert_eq (l : List Int) (r : ResultSet) :
    l.foldl (fun s i => insert i s) r = r ∪ l.toFinset := by
  induction l generalizing r with
  | nil => simp
  | cons a as ih =>
    rw [List.foldl_cons, ih]
    simp [Finset.insert_union, Finset.union_insert]

theorem foldl_shift {α : Type} (step : ResultSet → α → ResultSet)
    (hstep : ∀ r a, step r a = r ∪ step ∅ a) (l : List α) :
    ∀ r, l.foldl step r = r ∪ l.foldl step ∅ := by
  induction l with
  | nil => simp
  | cons a as ih =>
    intro r
    rw [List.foldl_cons, List.foldl_cons, ih (step r a), ih (step ∅ a),
      hstep r a, Finset.union_assoc]

theorem twoSidedDiff_invol (a b : ResultSet) :
    (a \ ((a \ b) ∪ (b \ a))) ∪ (((a \ b) ∪ (b \ a)) \ a) = b := by
  have h1 : ∀ x y : ResultSet, (x \ y) ∪ (y \ x) = symmDiff x y := by
    intro x y
    rw [symmDiff_def, Finset.sup_eq_union]
  have hd : (a \ b) ∪ (b \ a) = symmDiff a b := h1 a b
  rw [hd, h1 a (symmDiff a b)]
  exact symmDiff_symmDiff_cancel_left a b

/-- C10: Evaluating an expression that is neither a sequence, a string,
nor a map — a JSON number, boolean, or null — returns success without
error (not `NoOperation`) and leaves the Result Set unchanged. -/
theorem evalQuery_other_shapes_noop (src : Col) (result : ResultSet)
    (n : Int) (b : Bool) :
    evalQuery (.num n) src result = (result, none) ∧
    evalQuery (.bool b) src result = (result, none) ∧
    evalQuery .null src result = (result, none) := by
  refine ⟨?_, ?_, ?_⟩ <;> simp [evalQuery]

/-- C2 counterexample: with a nonempty running Result Set, `Intersect` of
an empty sub-expression list returns that set, not the empty set, so the
claim fails at Result Set `{1}`. -/
theorem intersect_empty_sublist_ctrex :
    Intersect (.arr []) trivCol {1} = ({1}, none) ∧
    ({1} : ResultSet) ≠ (∅ : ResultSet) := by
  refine ⟨by simp [Intersect, intersectLoop], by decide⟩

/-- C2 (amended): `Intersect` with an empty sub-expression list succeeds
and leaves the Result Set unchanged — in particular, from the initially
empty running set of a fresh evaluation it yields an empty result. -/
theorem intersect_empty_sublist_unchanged (src : Col) (result : ResultSet) :
    Intersect (.arr []) src result = (result, none) := by
  simp [Intersect, intersectLoop]

/-- C1: Complement chains symmetric differences: each step replaces the
running set with the two-sided difference against the fresh sub-result;
Complement of `[A]` from the empty set equals `evaluate(A)`, and
Complement of `[A, A]` restores any running set. -/
theorem complement_symmdiff_chain (src : Col) (A : JsonVal) (S : ResultSet)
    (h : evalQuery A src ∅ = (S, none)) :
    Complement (.arr [A]) src ∅ = (S, none) ∧
    ∀ r : ResultSet, Complement (.arr [A, A]) src r = (r, none) := by
  have hstep : ∀ (r : ResultSet) (rest : List JsonVal),
      complementLoop (A :: rest) src r
        = complementLoop rest src ((S \ r) ∪ (r \ S)) := by
    intro r rest
    simp only [complementLoop, h]
  constructor
  · rw [Complement, hstep, complementLoop]
    simp
  · intro r
    rw [Complement, hstep, hstep, complementLoop, twoSidedDiff_invol]

/-- C1 witness: at the single-document query `"7"` on the trivial
collection, Complement of `[A]` from the empty set is `{7}` and Complement
of `[A, A]` restores the running set `{3}`. -/
theorem complement_symmdiff_chain_witness :
    Complement (.arr [.str "7"]) trivCol ∅ = ({7}, none) ∧
    Complement (.arr [.str "7", .str "7"]) trivCol {3} = ({3}, none) := by
  have h := complement_symmdiff_chain trivCol (.str "7") {7}
    (by simp [evalQuery, parseInt64, digitsVal])
  exact ⟨h.1, h.2 {3}⟩

/-- C4 counterexample: a failing first sub-expression (itself a nested
union) leaves its own partial contribution `{5}` in the Result Set, so the
set does not retain exactly the contributions of sub-expressions evaluated
before the failing one (which are none here). -/
theorem union_abort_partial_ctrex :
    EvalUnion [.arr [.str "5", .str "x"]] trivCol ∅
      = ({5}, some (.invalidPKID "x")) ∧
    ({5} : ResultSet) ≠ (∅ : ResultSet) := by
  refine ⟨by simp [EvalUnion, evalQuery, parseInt64, digitsVal], by decide⟩

/-- C4 (amended): when a sub-expression of Union fails, evaluation aborts
immediately with that error and no rollback: the Result Set holds the
contributions of the sub-expressions before the failing one plus whatever
the failing sub-expression itself added before erroring. -/
theorem union_abort_partial (exprs : List JsonVal) (src : Col)
    (r0 rf : ResultSet) (err : QueryError)
    (h : EvalUnion exprs src r0 = (rf, some err)) :
    ∃ pre bad rest r1, exprs = pre ++ bad :: rest ∧
      EvalUnion pre src r0 = (r1, none) ∧
      evalQuery bad src r1 = (rf, some err) := by
  induction exprs generalizing r0 with
  | nil =>
    rw [EvalUnion] at h
    exact absurd h (by simp)
  | cons e rest ih =>
    rw [EvalUnion] at h
    rcases hE : evalQuery e src r0 with ⟨r1, oe⟩
    rw [hE] at h
    cases oe with
    | some e2 =>
      simp only at h
      refine ⟨[], e, rest, r0, rfl, by rw [EvalUnion], ?_⟩
      rw [hE]
      simpa using h
    | none =>
      simp only at h
      obtain ⟨pre, bad, rest2, r2, hsplit, hpre, hbad⟩ := ih r1 h
      refine ⟨e :: pre, bad, rest2, r2, by rw [hsplit]; rfl, ?_, hbad⟩
      rw [EvalUnion, hE]
      simpa using hpre

/-- C4 witness: the list `["1", "x"]` fails at `"x"` after `"1"`
contributed `{1}`. -/
theorem union_abort_partial_witness :
    ∃ pre bad rest r1, ([.str "1", .str "x"] : List JsonVal) = pre ++ bad :: rest ∧
      EvalUnion pre trivCol ∅ = (r1, none) ∧
      evalQuery bad trivCol r1 = ({1}, some (.invalidPKID "x")) := by
  apply union_abort_partial
  simp [EvalUnion, evalQuery, parseInt64, digitsVal]

/-- C9: each of Lookup, PathExistence and IntRange fails with the
IndexRequired error when the joined path key is not in the collection's
indexed-path set, performing no scan: the Result Set comes back
unchanged. -/
theorem index_required_rejects (src : Col) (result : ResultSet) :
    (∀ (lv : JsonVal) (fields : List (String × JsonVal)) (vp : List JsonVal)
        (L : Int),
      lookupField fields "in" = some (.arr vp) →
      parseLimit fields = .ok L →
      String.intercalate INDEX_PATH_SEP (vp.map sprint) ∉ src.indexPaths →
      Lookup lv fields src result = (result,
        some (.needIndex
          (.str (String.intercalate INDEX_PATH_SEP (vp.map sprint)))
          (.obj fields)))) ∧
    (∀ (fields : List (String × JsonVal)) (vp : List JsonVal) (L : Int),
      parseLimit fields = .ok L →
      String.intercalate INDEX_PATH_SEP (vp.map sprint) ∉ src.indexPaths →
      PathExistence (.arr vp) fields src result = (result,
        some (.needIndex (.arr ((vp.map sprint).map .str)) (.obj fields)))) ∧
    (∀ (fields : List (String × JsonVal)) (vp : List JsonVal) (L f t : Int),
      lookupField fields "in" = some (.arr vp) →
      parseLimit fields = .ok L →
      lookupField fields "int-to" = some (.num t) →
      String.intercalate "," (vp.map sprint) ∉ src.indexPaths →
      IntRange (.num f) fields src result = (result,
        some (.needIndex (.arr ((vp.map sprint).map .str)) (.obj fields)))) := by
  refine ⟨?_, ?_, ?_⟩
  · intro lv fields vp L hin hpl hni
    simp only [Lookup, hin, hpl]
    rw [if_neg hni]
  · intro fields vp L hpl hni
    simp only [PathExistence, hpl]
    rw [if_neg hni]
  · intro fields vp L f t hin hpl hto hni
    simp only [IntRange, hin, hpl, hto]
    rw [if_neg hni]

/-- C9 witness: on the trivial collection (nothing indexed) all three
operators reject path `a` with IndexRequired and leave the set `{4}`
unchanged. -/
theorem index_required_rejects_witness :
    Lookup (.num 1) [("in", .arr [.str "a"])] trivCol {4} = ({4},
      some (.needIndex (.str "a") (.obj [("in", .arr [.str "a"])]))) ∧
    PathExistence (.arr [.str "a"]) [] trivCol {4} = ({4},
      some (.needIndex (.arr [.str "a"]) (.obj []))) ∧
    IntRange (.num 1) [("in", .arr [.str "a"]), ("int-to", .num 2)] trivCol {4}
      = ({4}, some (.needIndex (.arr [.str "a"])
          (.obj [("in", .arr [.str "a"]), ("int-to", .num 2)]))) := by
  obtain ⟨h1, h2, h3⟩ := index_required_rejects trivCol {4}
  refine ⟨?_, ?_, ?_⟩
  · have := h1 (.num 1) [("in", .arr [.str "a"])] [.str "a"] 0
      (by simp [lookupField]) (by simp [parseLimit, lookupField])
      (by simp [trivCol, INDEX_PATH_SEP])
    simpa [sprint, INDEX_PATH_SEP] using this
  · have := h2 [] [.str "a"] 0 (by simp [parseLimit, lookupField])
      (by simp [trivCol, INDEX_PATH_SEP])
    simpa [sprint, INDEX_PATH_SEP] using this
  · have := h3 [("in", .arr [.str "a"]), ("int-to", .num 2)] [.str "a"] 0 1 2
      (by simp [lookupField]) (by simp [parseLimit, lookupField])
      (by simp [lookupField]) (by simp [trivCol])
    simpa [sprint] using this

theorem mem_condFold {s : String} {m : Int} (l : List JsonVal) :
    ∀ (r : ResultSet) (id : Int),
      id ∈ l.foldl (fun r2 v => if sprint v = s then insert m r2 else r2) r →
      id ∈ r ∨ (id = m ∧ ∃ v ∈ l, sprint v = s) := by
  induction l with
  | nil => intro r id h; exact .inl h
  | cons a as ih =>
    intro r id h
    rw [List.foldl_cons] at h
    rcases ih _ id h with h1 | h2
    · by_cases hs : sprint a = s
      · rw [if_pos hs] at h1
        rcases Finset.mem_insert.1 h1 with he | hr
        · exact .inr ⟨he, a, List.mem_cons_self a as, hs⟩
        · exact .inl hr
      · rw [if_neg hs] at h1
        exact .inl h1
    · obtain ⟨hid, v, hv, hsv⟩ := h2
      exact .inr ⟨hid, v, List.mem_cons_of_mem a hv, hsv⟩

theorem mem_lookupFilter {src : Col} {vecPath : List String} {s : String}
    {r : ResultSet} {m id : Int} (h : id ∈ lookupFilter src vecPath s r m) :
    id ∈ r ∨ (id = m ∧ ∃ doc, src.read m = some doc ∧
      ∃ v ∈ src.getIn doc vecPath, sprint v = s) := by
  unfold lookupFilter at h
  cases hr : src.read m with
  | none => rw [hr] at h; exact .inl h
  | some doc =>
    rw [hr] at h
    rcases mem_condFold _ _ _ h with h1 | ⟨hid, v, hv, hsv⟩
    · exact .inl h1
    · exact .inr ⟨hid, doc, rfl, v, hv, hsv⟩

theorem mem_lookupFold {src : Col} {vecPath : List String} {s : String}
    (vals : List Int) :
    ∀ (r : ResultSet) (id : Int),
      id ∈ vals.foldl (lookupFilter src vecPath s) r →
      id ∈ r ∨ ∃ doc, src.read id = some doc ∧
        ∃ v ∈ src.getIn doc vecPath, sprint v = s := by
  induction vals with
  | nil => intro r id h; exact .inl h
  | cons mm ms ih =>
    intro r id h
    rw [List.foldl_cons] at h
    rcases ih _ id h with h1 | h2
    · rcases mem_lookupFilter h1 with h3 | ⟨hid, doc, hdoc, hv⟩
      · exact .inl h3
      · subst hid
        exact .inr ⟨doc, hdoc, hv⟩
    · exact .inr h2

/-- C5: Lookup adds a candidate only when re-reading its document succeeds
and some value at the lookup path has exactly the target's string form (no
false positives from hash collisions); and once the scan phase is reached,
read failures are swallowed — the operator returns a nil error. -/
theorem lookup_collision_filter (src : Col) :
    (∀ (lv : JsonVal) (fields : List (String × JsonVal)) (vp : List JsonVal)
        (result : ResultSet) (id : Int),
      lookupField fields "in" = some (.arr vp) →
      id ∈ (Lookup lv fields src result).1 →
      id ∈ result ∨ ∃ doc, src.read id = some doc ∧
        ∃ v ∈ src.getIn doc (vp.map sprint), sprint v = sprint lv) ∧
    (∀ (lv : JsonVal) (fields : List (String × JsonVal)) (vp : List JsonVal)
        (result : ResultSet) (L : Int),
      lookupField fields "in" = some (.arr vp) →
      parseLimit fields = .ok L →
      String.intercalate INDEX_PATH_SEP (vp.map sprint) ∈ src.indexPaths →
      (Lookup lv fields src result).2 = none) := by
  constructor
  · intro lv fields vp result id hin hid
    rw [Lookup] at hid
    rw [hin] at hid
    cases hpl : parseLimit fields with
    | error e => rw [hpl] at hid; exact .inl hid
    | ok L =>
      rw [hpl] at hid
      by_cases hm : String.intercalate INDEX_PATH_SEP (vp.map sprint) ∈ src.indexPaths
      · simp only [if_pos hm] at hid
        exact mem_lookupFold _ _ _ hid
      · simp only [if_neg hm] at hid
        exact .inl hid
  · intro lv fields vp result L hin hpl hidx
    rw [Lookup]
    rw [hin, hpl]
    simp only [if_pos hidx]

/-- C5 witness: on `col5`, candidate 1 (readable, value `2` at the path)
satisfies the filter property instance and candidate 9's failed read does
not surface: the error is nil. -/
theorem lookup_collision_filter_witness :
    (1 ∈ (Lookup (.num 2) [("in", .arr [.str "a"])] col5 ∅).1 →
      1 ∈ (∅ : ResultSet) ∨ ∃ doc, col5.read 1 = some doc ∧
        ∃ v ∈ col5.getIn doc ["a"], sprint v = sprint (.num 2)) ∧
    (Lookup (.num 2) [("in", .arr [.str "a"])] col5 ∅).2 = none := by
  obtain ⟨h1, h2⟩ := lookup_collision_filter col5
  constructor
  · intro hmem
    have := h1 (.num 2) [("in", .arr [.str "a"])] [.str "a"] ∅ 1
      (by simp [lookupField]) hmem
    simpa [sprint] using this
  · exact h2 (.num 2) [("in", .arr [.str "a"])] [.str "a"] ∅ 0
      (by simp [lookupField]) (by simp [parseLimit, lookupField])
      (by simp [col5, sprint, INDEX_PATH_SEP]; rfl)

theorem irAdd_at_limit {L : Int} (hpos : 0 < L) (vals : List Int)
    (r : ResultSet) : irAdd vals L L r = (r, L) := by
  cases vals with
  | nil => rfl
  | cons d rest => simp [irAdd, hpos]

theorem irScan_at_limit {L : Int} (hpos : 0 < L) (src : Col) (htPath : String)
    (values : List Int) : ∀ r, irScan src htPath values L L r = (r, L) := by
  induction values with
  | nil => intro r; rfl
  | cons v rest ih =>
    intro r
    rw [irScan]
    simp only [irAdd_at_limit hpos]
    exact ih r

theorem irAdd_bound {L : Int} (hpos : 0 < L) (vals : List Int) :
    ∀ (c : Int) (r : ResultSet), 0 ≤ c → c ≤ L →
      (irAdd vals L c r).1.card ≤ r.card + ((irAdd vals L c r).2 - c).toNat ∧
      c ≤ (irAdd vals L c r).2 ∧ (irAdd vals L c r).2 ≤ L := by
  induction vals with
  | nil =>
    intro c r h0 hL
    exact ⟨by simp [irAdd], by simp [irAdd], by simpa [irAdd] using hL⟩
  | cons d rest ih =>
    intro c r h0 hL
    rw [irAdd]
    by_cases hc : c = L
    · rw [if_pos (show L > 0 ∧ c = L from ⟨hpos, hc⟩)]
      exact ⟨by simp, le_rfl, hL⟩
    · have hlt : c < L := lt_of_le_of_ne hL hc
      have hcond : ¬(L > 0 ∧ c = L) := by tauto
      simp only [if_neg hcond]
      obtain ⟨h1, h2, h3⟩ := ih (c + 1) (insert d r) (by omega) (by omega)
      refine ⟨?_, by omega, h3⟩
      have hcard : (insert d r).card ≤ r.card + 1 := Finset.card_insert_le d r
      omega

theorem irScan_bound {L : Int} (hpos : 0 < L) (src : Col) (htPath : String)
    (values : List Int) :
    ∀ (c : Int) (r : ResultSet), 0 ≤ c → c ≤ L →
      (irScan src htPath values L c r).1.card
        ≤ r.card + ((irScan src htPath values L c r).2 - c).toNat ∧
      c ≤ (irScan src htPath values L c r).2 ∧
      (irScan src htPath values L c r).2 ≤ L := by
  induction values with
  | nil =>
    intro c r h0 hL
    exact ⟨by simp [irScan], by simp [irScan], by simpa [irScan] using hL⟩
  | cons v rest ih =>
    intro c r h0 hL
    rw [irScan]
    obtain ⟨a1, a2, a3⟩ := irAdd_bound hpos
      (src.hashScan htPath (src.strHash (toString v)) L) c r h0 hL
    obtain ⟨b1, b2, b3⟩ := ih _ _ (by omega) a3
    refine ⟨?_, by omega, b3⟩
    omega

theorem irScan_card_le {L : Int} (hpos : 0 < L) (src : Col) (htPath : String)
    (values : List Int) (r : ResultSet) :
    (irScan src htPath values L 0 r).1.card ≤ r.card + L.toNat := by
  obtain ⟨c1, c2, c3⟩ := irScan_bound hpos src htPath values 0 r le_rfl
    (le_of_lt hpos)
  omega

/-- C6: with a positive limit L, once the counter reaches L no further ID
from the current integer's match list is added (the inner loop breaks with
the result unchanged), the outer loop over remaining integers continues
but adds nothing, and in total the operation grows the Result Set by at
most L IDs. -/
theorem intrange_limit_caps (src : Col) (fields : List (String × JsonVal))
    (intFrom : JsonVal) (result : ResultSet) (L : Int)
    (hL : lookupField fields "limit" = some (.num L)) (hpos : 0 < L) :
    (IntRange intFrom fields src result).1.card ≤ result.card + L.toNat ∧
    (∀ vals r, irAdd vals L L r = (r, L)) ∧
    (∀ htPath values r, irScan src htPath values L L r = (r, L)) := by
  have hpl : parseLimit fields = .ok L := by simp [parseLimit, hL]
  refine ⟨?_, fun vals r => irAdd_at_limit hpos vals r,
    fun htPath values r => irScan_at_limit hpos src htPath values r⟩
  rw [IntRange]
  split
  · simp
  next path hin =>
    split
    · rw [hpl]
      simp only
      split
      next fromVal =>
        split
        · simp
        next toVal hto =>
          split
          · exact irScan_card_le hpos src _ _ result
          · simp
      · simp
    · simp

/-- C6 witness: on `col6` (each hash key holds documents 4 and 5) a range
scan limited to 1 grows the empty set by at most one ID; at the limit the
inner loop drops 9 and the outer loop over value 2 adds nothing. -/
theorem intrange_limit_caps_witness :
    (IntRange (.num 1)
      [("in", .arr [.str "a"]), ("limit", .num 1), ("int-to", .num 2)]
      col6 ∅).1.card ≤ (∅ : ResultSet).card + (1 : Int).toNat ∧
    irAdd [9] 1 1 {5} = ({5}, 1) ∧
    irScan col6 "a" [2] 1 1 {5} = ({5}, 1) := by
  obtain ⟨h1, h2, h3⟩ := intrange_limit_caps col6
    [("in", .arr [.str "a"]), ("limit", .num 1), ("int-to", .num 2)]
    (.num 1) ∅ 1 (by simp [lookupField]) (by norm_num)
  exact ⟨h1, h2 [9] {5}, h3 "a" [2] {5}⟩

theorem irAdd_nolimit (vals : List Int) :
    ∀ (c : Int) (r : ResultSet),
      irAdd vals 0 c r = (vals.foldl (fun s d => insert d s) r, c + vals.length) := by
  induction vals with
  | nil => intro c r; simp [irAdd]
  | cons d rest ih =>
    intro c r
    rw [irAdd, if_neg (by simp)]
    rw [ih]
    simp only [List.foldl_cons, List.length_cons]
    refine congrArg _ ?_
    push_cast
    ring

theorem mem_irScan_nolimit (src : Col) (htPath : String) (values : List Int) :
    ∀ (c : Int) (r : ResultSet) (x : Int),
      x ∈ (irScan src htPath values 0 c r).1 ↔ x ∈ r ∨
        ∃ v ∈ values, x ∈ src.hashScan htPath (src.strHash (toString v)) 0 := by
  induction values with
  | nil => intro c r x; simp [irScan]
  | cons v rest ih =>
    intro c r x
    rw [irScan]
    simp only [irAdd_nolimit]
    rw [ih, foldl_insert_eq]
    simp only [Finset.mem_union, List.mem_toFinset, List.mem_cons]
    constructor
    · rintro ((h | h) | ⟨w, hw, hx⟩)
      · exact .inl h
      · exact .inr ⟨v, .inl rfl, h⟩
      · exact .inr ⟨w, .inr hw, hx⟩
    · rintro (h | ⟨w, (rfl | hw), hx⟩)
      · exact .inl (.inl h)
      · exact .inl (.inr hx)
      · exact .inr ⟨w, hw, hx⟩

theorem mem_ascValues {lo hi v : Int} :
    v ∈ ascValues lo hi ↔ lo ≤ v ∧ v ≤ hi := by
  simp only [ascValues, List.mem_map, List.mem_range]
  constructor
  · rintro ⟨i, hi2, rfl⟩
    constructor <;> omega
  · rintro ⟨h1, h2⟩
    exact ⟨(v - lo).toNat, by omega, by omega⟩

theorem mem_descValues {hi lo v : Int} :
    v ∈ descValues hi lo ↔ lo ≤ v ∧ v ≤ hi := by
  simp only [descValues, List.mem_map, List.mem_range]
  constructor
  · rintro ⟨i, hi2, rfl⟩
    constructor <;> omega
  · rintro ⟨h1, h2⟩
    exact ⟨(hi - v).toNat, by omega, by omega⟩

/-- C7: IntRange scans ascending when from < to and otherwise descending
from `from` down to `to` inclusive (a single value when they are equal),
and without a limit the final Result Set does not depend on the scan
direction: swapping the two bounds yields the same outcome. -/
theorem intrange_direction_independent (src : Col) (vp : List JsonVal)
    (f t : Int) (result : ResultSet)
    (hidx : String.intercalate "," (vp.map sprint) ∈ src.indexPaths) :
    (∀ x : Int, (if x < x then ascValues x x else descValues x x) = [x]) ∧
    IntRange (.num f)
      [("in", .arr vp), ("int-from", .num f), ("int-to", .num t)] src result =
    IntRange (.num t)
      [("in", .arr vp), ("int-from", .num t), ("int-to", .num f)] src result := by
  constructor
  · intro x
    rw [if_neg (lt_irrefl x)]
    have h1 : (x - x + 1).toNat = 1 := by omega
    have h2 : List.range 1 = [0] := rfl
    rw [descValues, h1, h2]
    simp
  · have hred : ∀ a b : Int,
        IntRange (.num a)
          [("in", .arr vp), ("int-from", .num a), ("int-to", .num b)] src result
        = ((irScan src (String.intercalate "," (vp.map sprint))
            (if a < b then ascValues a b else descValues a b) 0 0 result).1,
           none) := by
      intro a b
      rw [IntRange]
      simp [parseLimit, lookupField, hidx]
    rw [hred f t, hred t f]
    have hv : ∀ v : Int,
        (v ∈ if f < t then ascValues f t else descValues f t) ↔
        (v ∈ if t < f then ascValues t f else descValues t f) := by
      intro v
      by_cases hft : f < t
      · rw [if_pos hft, if_neg (by omega)]
        rw [mem_ascValues, mem_descValues]
      · by_cases htf : t < f
        · rw [if_neg hft, if_pos htf]
          rw [mem_descValues, mem_ascValues]
        · have heq : f = t := by omega
          subst heq
          simp [hft]
    have hXY : (irScan src (String.intercalate "," (vp.map sprint))
          (if f < t then ascValues f t else descValues f t) 0 0 result).1
        = (irScan src (String.intercalate "," (vp.map sprint))
          (if t < f then ascValues t f else descValues t f) 0 0 result).1 := by
      apply Finset.ext
      intro x
      rw [mem_irScan_nolimit, mem_irScan_nolimit]
      simp only [hv]
    rw [hXY]

/-- C7 witness: on `col7`, the degenerate range visits the single value 3,
and scanning 5 down to 1 equals scanning 1 up to 5. -/
theorem intrange_direction_independent_witness :
    (if (3 : Int) < 3 then ascValues 3 3 else descValues 3 3) = [3] ∧
    IntRange (.num 5)
      [("in", .arr [.str "a"]), ("int-from", .num 5), ("int-to", .num 1)]
      col7 ∅ =
    IntRange (.num 1)
      [("in", .arr [.str "a"]), ("int-from", .num 1), ("int-to", .num 5)]
      col7 ∅ := by
  obtain ⟨h1, h2⟩ := intrange_direction_independent col7 [.str "a"] 5 1 ∅
    (by simp [col7, sprint]; rfl)
  exact ⟨h1 3, h2⟩

theorem peAddIds_short {L c : Int} (hpos : 0 < L) (h0 : 0 ≤ c) (hcL : c < L)
    (ids : List Int) (r : ResultSet)
    (h : ids.length < (L - c).toNat) :
    peAddIds ids L c r =
      (ids.foldl (fun s i => insert i s) r, c + ids.length, false) := by
  induction ids generalizing c r with
  | nil => simp [peAddIds]
  | cons d rest ih =>
    rw [peAddIds]
    simp only [List.length_cons] at h
    have hne : ¬(c + 1 = L) := by omega
    rw [if_neg hne]
    rw [ih (by omega) (by omega) (insert d r) (by omega)]
    simp only [List.foldl_cons, List.length_cons]
    refine congrArg _ (congrArg (fun z => (z, false)) ?_)
    push_cast
    ring

theorem peAddIds_long {L c : Int} (hpos : 0 < L) (h0 : 0 ≤ c) (hcL : c < L)
    (ids : List Int) (r : ResultSet)
    (h : (L - c).toNat ≤ ids.length) :
    peAddIds ids L c r =
      ((ids.take (L - c).toNat).foldl (fun s i => insert i s) r, L, true) := by
  induction ids generalizing c r with
  | nil => simp at h; omega
  | cons d rest ih =>
    rw [peAddIds]
    by_cases hstop : c + 1 = L
    · rw [if_pos hstop]
      have hk : (L - c).toNat = 1 := by omega
      rw [hk]
      simp [hstop]
    · rw [if_neg hstop]
      have hk : (L - c).toNat = (L - (c + 1)).toNat + 1 := by omega
      simp only [List.length_cons] at h
      rw [ih (by omega) (by omega) (insert d r) (by omega), hk,
        List.take_succ_cons, List.foldl_cons]

theorem peSlices_short {L c : Int} (hpos : 0 < L) (h0 : 0 ≤ c) (hcL : c < L)
    (ht : HT) (partDiv : Nat) (slices : List Nat) (r : ResultSet)
    (h : (slices.flatMap (fun i => ht.getPartition i partDiv)).length
          < (L - c).toNat) :
    peSlices ht partDiv slices L c r =
      ((slices.flatMap (fun i => ht.getPartition i partDiv)).foldl
          (fun s i => insert i s) r,
       c + (slices.flatMap (fun i => ht.getPartition i partDiv)).length,
       false) := by
  induction slices generalizing c r with
  | nil => simp [peSlices]
  | cons i rest ih =>
    rw [peSlices]
    rw [List.flatMap_cons, List.length_append] at h ⊢
    have hids : (ht.getPartition i partDiv).length < (L - c).toNat := by omega
    rw [peAddIds_short hpos h0 hcL _ r hids]
    simp only [Bool.false_eq_true, if_false]
    rw [ih (by omega) (by omega) _ (by omega)]
    rw [List.foldl_append]
    refine congrArg _ (congrArg (fun z => (z, false)) ?_)
    push_cast
    ring

theorem peSlices_long {L c : Int} (hpos : 0 < L) (h0 : 0 ≤ c) (hcL : c < L)
    (ht : HT) (partDiv : Nat) (slices : List Nat) (r : ResultSet)
    (h : (L - c).toNat
          ≤ (slices.flatMap (fun i => ht.getPartition i partDiv)).length) :
    peSlices ht partDiv slices L c r =
      (((slices.flatMap (fun i => ht.getPartition i partDiv)).take
          (L - c).toNat).foldl (fun s i => insert i s) r,
       L, true) := by
  induction slices generalizing c r with
  | nil => simp at h; omega
  | cons i rest ih =>
    rw [peSlices]
    rw [List.flatMap_cons, List.length_append] at h
    rw [List.flatMap_cons, List.take_append_eq_append_take]
    by_cases hcase : (L - c).toNat ≤ (ht.getPartition i partDiv).length
    · rw [peAddIds_long hpos h0 hcL _ r hcase]
      simp only [if_true]
      have hz : (L - c).toNat - (ht.getPartition i partDiv).length = 0 := by
        omega
      rw [hz, List.take_zero, List.append_nil]
    · push_neg at hcase
      rw [peAddIds_short hpos h0 hcL _ r hcase]
      simp only [Bool.false_eq_true, if_false]
      have hlen : (L - (c + (ht.getPartition i partDiv).length)).toNat
          = (L - c).toNat - (ht.getPartition i partDiv).length := by omega
      rw [ih (by omega) (by omega) _ (by omega)]
      rw [List.take_of_length_le (le_of_lt hcase), List.foldl_append, hlen]

theorem peParts_short {L c : Int} (hpos : 0 < L) (h0 : 0 ≤ c) (hcL : c < L)
    (src : Col) (jointPath : String) (partDiv : Nat) (parts : List Nat)
    (r : ResultSet)
    (h : (parts.flatMap (fun p => (List.range partDiv).flatMap
            (fun i => (src.hts p jointPath).getPartition i partDiv))).length
          < (L - c).toNat) :
    peParts src jointPath partDiv parts L c r =
      ((parts.flatMap (fun p => (List.range partDiv).flatMap
          (fun i => (src.hts p jointPath).getPartition i partDiv))).foldl
          (fun s i => insert i s) r,
       c + (parts.flatMap (fun p => (List.range partDiv).flatMap
          (fun i => (src.hts p jointPath).getPartition i partDiv))).length,
       false) := by
  induction parts generalizing c r with
  | nil => simp [peParts]
  | cons p rest ih =>
    rw [peParts]
    rw [List.flatMap_cons, List.length_append] at h ⊢
    have hids : ((List.range partDiv).flatMap
        (fun i => (src.hts p jointPath).getPartition i partDiv)).length
          < (L - c).toNat := by omega
    rw [peSlices_short hpos h0 hcL _ partDiv _ r hids]
    simp only [Bool.false_eq_true, if_false]
    rw [ih (by omega) (by omega) _ (by omega)]
    rw [List.foldl_append]
    refine congrArg _ (congrArg (fun z => (z, false)) ?_)
    push_cast
    ring

theorem peParts_long {L c : Int} (hpos : 0 < L) (h0 : 0 ≤ c) (hcL : c < L)
    (src : Col) (jointPath : String) (partDiv : Nat) (parts : List Nat)
    (r : ResultSet)
    (h : (L - c).toNat
          ≤ (parts.flatMap (fun p => (List.range partDiv).flatMap
              (fun i => (src.hts p jointPath).getPartition i partDiv))).length) :
    peParts src jointPath partDiv parts L c r =
      (((parts.flatMap (fun p => (List.range partDiv).flatMap
          (fun i => (src.hts p jointPath).getPartition i partDiv))).take
          (L - c).toNat).foldl (fun s i => insert i s) r,
       L, true) := by
  induction parts generalizing c r with
  | nil => simp at h; omega
  | cons p rest ih =>
    rw [peParts]
    rw [List.flatMap_cons, List.length_append] at h
    rw [List.flatMap_cons, List.take_append_eq_append_take]
    by_cases hcase : (L - c).toNat ≤ ((List.range partDiv).flatMap
        (fun i => (src.hts p jointPath).getPartition i partDiv)).length
    · rw [peSlices_long hpos h0 hcL _ partDiv _ r hcase]
      simp only [if_true]
      have hz : (L - c).toNat - ((List.range partDiv).flatMap
          (fun i => (src.hts p jointPath).getPartition i partDiv)).length
            = 0 := by omega
      rw [hz, List.take_zero, List.append_nil]
    · push_neg at hcase
      rw [peSlices_short hpos h0 hcL _ partDiv _ r hcase]
      simp only [Bool.false_eq_true, if_false]
      have hlen : (L - (c + ((List.range partDiv).flatMap
          (fun i => (src.hts p jointPath).getPartition i partDiv)).length)).toNat
            = (L - c).toNat - ((List.range partDiv).flatMap
              (fun i => (src.hts p jointPath).getPartition i partDiv)).length := by
        omega
      rw [ih (by omega) (by omega) _ (by omega)]
      rw [List.take_of_length_le (le_of_lt hcase), List.foldl_append, hlen]

/-- C8: with a positive limit L, PathExistence stops the whole multi-shard
scan the instant the counter reaches L: the Result Set is exactly the
first L IDs of the index traversal (all of them when fewer exist), and
when the index holds each document once its size is exactly
min(L, totalMatches). -/
theorem pathexistence_limit_exact (src : Col)
    (fields : List (String × JsonVal)) (vp : List JsonVal) (L : Int)
    (hL : lookupField fields "limit" = some (.num L)) (hpos : 0 < L)
    (hidx : String.intercalate INDEX_PATH_SEP (vp.map sprint) ∈ src.indexPaths)
    (hnd : (peAllIds src (String.intercalate INDEX_PATH_SEP (vp.map sprint))).Nodup) :
    PathExistence (.arr vp) fields src ∅ =
      (((peAllIds src (String.intercalate INDEX_PATH_SEP (vp.map sprint))).take
          L.toNat).toFinset, none) ∧
    (PathExistence (.arr vp) fields src ∅).1.card =
      min L.toNat
        (peAllIds src (String.intercalate INDEX_PATH_SEP (vp.map sprint))).length := by
  have hpl : parseLimit fields = .ok L := by simp [parseLimit, hL]
  set jp := String.intercalate INDEX_PATH_SEP (vp.map sprint) with hjp
  have hred : PathExistence (.arr vp) fields src ∅ =
      ((peParts src jp (pePartDiv src) (List.range src.numParts) L 0 ∅).1,
       none) := by
    rw [PathExistence, hpl]
    simp [hidx, hjp]
  have hall : peAllIds src jp = (List.range src.numParts).flatMap
      (fun p => (List.range (pePartDiv src)).flatMap
        (fun i => (src.hts p jp).getPartition i (pePartDiv src))) := rfl
  have hzero : ((L : Int) - 0).toNat = L.toNat := by omega
  rcases le_or_lt L.toNat (peAllIds src jp).length with hsplit | hsplit
  · have hl := peParts_long hpos le_rfl hpos src jp (pePartDiv src)
      (List.range src.numParts) ∅ (by rw [hzero]; rw [hall] at hsplit; exact hsplit)
    have h1 : PathExistence (.arr vp) fields src ∅ =
        (((peAllIds src jp).take L.toNat).toFinset, none) := by
      rw [hred, hl, hzero, ← hall, foldl_insert_eq]
      simp
    refine ⟨h1, ?_⟩
    rw [h1]
    simp only
    rw [List.toFinset_card_of_nodup
      (((peAllIds src jp).take_sublist L.toNat).nodup hnd)]
    rw [List.length_take]
  · have hs := peParts_short hpos le_rfl hpos src jp (pePartDiv src)
      (List.range src.numParts) ∅ (by rw [hzero]; rw [hall] at hsplit; exact hsplit)
    have h1 : PathExistence (.arr vp) fields src ∅ =
        (((peAllIds src jp).take L.toNat).toFinset, none) := by
      rw [hred, hs, ← hall, foldl_insert_eq,
        List.take_of_length_le (le_of_lt hsplit)]
      simp
    refine ⟨h1, ?_⟩
    rw [h1]
    simp only
    rw [List.take_of_length_le (le_of_lt hsplit),
      List.toFinset_card_of_nodup hnd]
    omega

/-- C8 witness: on `col8` (four documents 1, 2, 11, 12 across two shards)
a limit of 3 returns exactly the first three traversed IDs, of size
min(3, 4) = 3. -/
theorem pathexistence_limit_exact_witness :
    PathExistence (.arr [.str "a"]) [("limit", .num 3)] col8 ∅ =
      (((peAllIds col8 "a").take 3).toFinset, none) ∧
    (PathExistence (.arr [.str "a"]) [("limit", .num 3)] col8 ∅).1.card = 3 := by
  have h := pathexistence_limit_exact col8 [("limit", .num 3)] [.str "a"] 3
    (by simp [lookupField]) (by norm_num)
    (by simp [col8, sprint, INDEX_PATH_SEP]; rfl)
    (by decide)
  constructor
  · have h1 := h.1
    simpa [sprint, INDEX_PATH_SEP] using h1
  · have h2 := h.2
    simpa [sprint, INDEX_PATH_SEP] using h2

theorem lookupFilter_shift (src : Col) (vecPath : List String) (s : String)
    (r : ResultSet) (m : Int) :
    lookupFilter src vecPath s r m = r ∪ lookupFilter src vecPath s ∅ m := by
  unfold lookupFilter
  cases src.read m with
  | none => simp
  | some doc =>
    exact foldl_shift _ (fun r2 v => by
      by_cases hs : sprint v = s <;>
        simp [hs, Finset.insert_eq, Finset.union_comm]) _ r

theorem EvalAllIDs_shift (src : Col) (r : ResultSet) :
    EvalAllIDs src r = r ∪ EvalAllIDs src ∅ := by
  unfold EvalAllIDs
  exact foldl_shift _ (fun r2 p => by
    simp [Finset.insert_eq, Finset.union_comm]) _ r

theorem Lookup_shift (lv : JsonVal) (fields : List (String × JsonVal))
    (src : Col) (r : ResultSet) :
    Lookup lv fields src r =
      (r ∪ (Lookup lv fields src ∅).1, (Lookup lv fields src ∅).2) := by
  simp only [Lookup]
  cases hin : lookupField fields "in" with
  | none => simp
  | some path =>
    cases path with
    | arr vpi =>
      simp only
      cases hpl : parseLimit fields with
      | error e => simp
      | ok L =>
        simp only
        by_cases hm : String.intercalate INDEX_PATH_SEP (vpi.map sprint)
            ∈ src.indexPaths
        · rw [if_pos hm, if_pos hm]
          rw [foldl_shift _ (fun r2 m => lookupFilter_shift src _ _ r2 m) _ r]
        · rw [if_neg hm, if_neg hm]
          simp
    | null => simp
    | bool b => simp
    | num n => simp
    | str s2 => simp
    | obj fs => simp

theorem peAddIds_shift (ids : List Int) :
    ∀ (L c : Int) (r : ResultSet),
      peAddIds ids L c r =
        (r ∪ (peAddIds ids L c ∅).1, (peAddIds ids L c ∅).2) := by
  induction ids with
  | nil => intro L c r; simp [peAddIds]
  | cons d rest ih =>
    intro L c r
    rw [peAddIds, peAddIds]
    by_cases hstop : c + 1 = L
    · rw [if_pos hstop, if_pos hstop]
      simp [Finset.insert_eq, Finset.union_comm]
    · rw [if_neg hstop, if_neg hstop]
      rw [ih L (c + 1) (insert d r), ih L (c + 1) (insert d ∅)]
      simp [Finset.insert_eq, Finset.union_left_comm, Finset.union_assoc]

theorem peSlices_shift (ht : HT) (partDiv : Nat) (slices : List Nat) :
    ∀ (L c : Int) (r : ResultSet),
      peSlices ht partDiv slices L c r =
        (r ∪ (peSlices ht partDiv slices L c ∅).1,
         (peSlices ht partDiv slices L c ∅).2) := by
  induction slices with
  | nil => intro L c r; simp [peSlices]
  | cons i rest ih =>
    intro L c r
    rw [peSlices, peSlices]
    rw [peAddIds_shift _ L c r]
    simp only
    by_cases hstop : (peAddIds (ht.getPartition i partDiv) L c ∅).2.2 = true
    · rw [if_pos hstop, if_pos hstop]
    · rw [if_neg hstop, if_neg hstop]
      rw [ih L _ (r ∪ (peAddIds (ht.getPartition i partDiv) L c ∅).1),
        ih L _ ((peAddIds (ht.getPartition i partDiv) L c ∅).1)]
      simp [Finset.union_assoc]

theorem peParts_shift (src : Col) (jointPath : String) (partDiv : Nat)
    (parts : List Nat) :
    ∀ (L c : Int) (r : ResultSet),
      peParts src jointPath partDiv parts L c r =
        (r ∪ (peParts src jointPath partDiv parts L c ∅).1,
         (peParts src jointPath partDiv parts L c ∅).2) := by
  induction parts with
  | nil => intro L c r; simp [peParts]
  | cons p rest ih =>
    intro L c r
    rw [peParts, peParts]
    rw [peSlices_shift _ partDiv _ L c r]
    simp only
    by_cases hstop :
        (peSlices (src.hts p jointPath) partDiv (List.range partDiv) L c ∅).2.2
          = true
    · rw [if_pos hstop, if_pos hstop]
    · rw [if_neg hstop, if_neg hstop]
      rw [ih L _ (r ∪ _), ih L _ ((peSlices (src.hts p jointPath) partDiv
        (List.range partDiv) L c ∅).1)]
      simp [Finset.union_assoc]

theorem PathExistence_shift (hasPath : JsonVal)
    (fields : List (String × JsonVal)) (src : Col) (r : ResultSet) :
    PathExistence hasPath fields src r =
      (r ∪ (PathExistence hasPath fields src ∅).1,
       (PathExistence hasPath fields src ∅).2) := by
  simp only [PathExistence]
  cases hasPath with
  | arr vpi =>
    simp only
    cases hpl : parseLimit fields with
    | error e => simp
    | ok L =>
      simp only
      by_cases hm : String.intercalate INDEX_PATH_SEP (vpi.map sprint)
          ∈ src.indexPaths
      · rw [if_pos hm, if_pos hm]
        rw [peParts_shift src _ (pePartDiv src) _ L 0 r]
      · rw [if_neg hm, if_neg hm]
        simp
  | null => simp
  | bool b => simp
  | num n => simp
  | str s2 => simp
  | obj fs => simp

theorem irAdd_shift (vals : List Int) :
    ∀ (L c : Int) (r : ResultSet),
      irAdd vals L c r = (r ∪ (irAdd vals L c ∅).1, (irAdd vals L c ∅).2) := by
  induction vals with
  | nil => intro L c r; simp [irAdd]
  | cons d rest ih =>
    intro L c r
    rw [irAdd, irAdd]
    by_cases hstop : L > 0 ∧ c = L
    · rw [if_pos hstop, if_pos hstop]
      simp
    · rw [if_neg hstop, if_neg hstop]
      rw [ih L (c + 1) (insert d r), ih L (c + 1) (insert d ∅)]
      simp [Finset.insert_eq, Finset.union_left_comm, Finset.union_assoc]

theorem irScan_shift (src : Col) (htPath : String) (values : List Int) :
    ∀ (L c : Int) (r : ResultSet),
      irScan src htPath values L c r =
        (r ∪ (irScan src htPath values L c ∅).1,
         (irScan src htPath values L c ∅).2) := by
  induction values with
  | nil => intro L c r; simp [irScan]
  | cons v rest ih =>
    intro L c r
    rw [irScan, irScan]
    rw [irAdd_shift _ L c r]
    simp only
    rw [ih L _ (r ∪ (irAdd (src.hashScan htPath (src.strHash (toString v)) L)
        L c ∅).1),
      ih L _ ((irAdd (src.hashScan htPath (src.strHash (toString v)) L)
        L c ∅).1)]
    simp [Finset.union_assoc]

theorem IntRange_shift (intFrom : JsonVal) (fields : List (String × JsonVal))
    (src : Col) (r : ResultSet) :
    IntRange intFrom fields src r =
      (r ∪ (IntRange intFrom fields src ∅).1,
       (IntRange intFrom fields src ∅).2) := by
  simp only [IntRange]
  cases hin : lookupField fields "in" with
  | none => simp
  | some path =>
    cases path with
    | arr vpi =>
      simp only
      cases hpl : parseLimit fields with
      | error e => simp
      | ok L =>
        simp only
        cases intFrom with
        | num fromVal =>
          simp only
          cases hto : lookupField fields "int-to" with
          | some tv =>
            cases tv with
            | num toVal =>
              simp only
              by_cases hm : String.intercalate "," (vpi.map sprint)
                  ∈ src.indexPaths
              · rw [if_pos hm, if_pos hm]
                rw [irScan_shift src _ _ L 0 r]
              · rw [if_neg hm, if_neg hm]
                simp
            | null => simp
            | bool b => simp
            | str s2 => simp
            | arr a2 => simp
            | obj o2 => simp
          | none =>
            cases hto2 : lookupField fields "int to" with
            | some tv =>
              cases tv with
              | num toVal =>
                simp only
                by_cases hm : String.intercalate "," (vpi.map sprint)
                    ∈ src.indexPaths
                · rw [if_pos hm, if_pos hm]
                  rw [irScan_shift src _ _ L 0 r]
                · rw [if_neg hm, if_neg hm]
                  simp
              | null => simp
              | bool b => simp
              | str s2 => simp
              | arr a2 => simp
              | obj o2 => simp
            | none => simp
        | null => simp
        | bool b => simp
        | str s2 => simp
        | arr a2 => simp
        | obj o2 => simp
    | null => simp
    | bool b => simp
    | num n => simp
    | str s2 => simp
    | obj fs => simp

theorem additive_arr {elems : List JsonVal} (h : additive (.arr elems) = true) :
    ∀ e ∈ elems, additive e = true := by
  rw [additive, List.all_eq_true] at h
  intro e he
  exact h ⟨e, he⟩ (List.mem_attach _ _)

theorem evalQuery_additive_shift (n : Nat) :
    ∀ (q : JsonVal) (src : Col) (r : ResultSet), sizeOf q ≤ n →
      additive q = true →
      evalQuery q src r =
        (r ∪ (evalQuery q src ∅).1, (evalQuery q src ∅).2) := by
  induction n using Nat.strong_induction_on with
  | _ n ih =>
    intro q src r hsz hadd
    cases q with
    | null => simp [evalQuery]
    | bool b => simp [evalQuery]
    | num m => simp [evalQuery]
    | str s =>
      simp only [evalQuery]
      by_cases hall : s = "all"
      · rw [if_pos hall, if_pos hall]
        rw [EvalAllIDs_shift src r]
      · rw [if_neg hall, if_neg hall]
        cases hp : parseInt64 s with
        | none => simp
        | some docID => simp [Finset.insert_eq, Finset.union_comm]
    | arr elems =>
      have hmem := additive_arr hadd
      have hlist : ∀ (l : List JsonVal), (∀ e ∈ l, e ∈ elems) →
          ∀ r2 : ResultSet, EvalUnion l src r2 =
            (r2 ∪ (EvalUnion l src ∅).1, (EvalUnion l src ∅).2) := by
        intro l
        induction l with
        | nil => intro _ r2; simp [EvalUnion]
        | cons e rest ihl =>
          intro hsub r2
          have he : e ∈ elems := hsub e (List.mem_cons_self e rest)
          have hsize : sizeOf e < n := by
            have h1 := sizeOf_lt_of_mem_elems he
            have h2 : sizeOf (JsonVal.arr elems) ≤ n := hsz
            simp only [JsonVal.arr.sizeOf_spec] at h2
            omega
          have hA := ih (sizeOf e) hsize e src r2 le_rfl (hmem e he)
          rw [EvalUnion, EvalUnion, hA]
          simp only
          cases herr : (evalQuery e src ∅).2 with
          | some e2 => simp
          | none =>
            simp only
            rw [ihl (fun x hx => hsub x (List.mem_cons_of_mem e hx))
                (r2 ∪ (evalQuery e src ∅).1),
              ihl (fun x hx => hsub x (List.mem_cons_of_mem e hx))
                ((evalQuery e src ∅).1)]
            simp [Finset.union_assoc]
      simp only [evalQuery]
      exact hlist elems (fun _ h => h) r
    | obj fields =>
      simp only [evalQuery]
      cases heq : lookupField fields "eq" with
      | some lv => exact Lookup_shift lv fields src r
      | none =>
        cases hhas : lookupField fields "has" with
        | some hp => exact PathExistence_shift hp fields src r
        | none =>
          cases hn : lookupField fields "n" with
          | some sub =>
            rw [additive] at hadd
            simp [heq, hhas, hn] at hadd
          | none =>
            cases hc : lookupField fields "c" with
            | some sub =>
              rw [additive] at hadd
              simp [heq, hhas, hn, hc] at hadd
            | none =>
              cases hif : lookupField fields "int-from" with
              | some f => exact IntRange_shift f fields src r
              | none =>
                cases hif2 : lookupField fields "int from" with
                | some f => exact IntRange_shift f fields src r
                | none => simp

theorem EvalUnion_append_ok (xs ys : List JsonVal) (src : Col) :
    ∀ r, (EvalUnion xs src r).2 = none →
      EvalUnion (xs ++ ys) src r = EvalUnion ys src (EvalUnion xs src r).1 := by
  induction xs with
  | nil => intro r h; simp [EvalUnion]
  | cons e rest ih =>
    intro r h
    rcases hE : evalQuery e src r with ⟨r1, oe⟩
    simp only [List.cons_append, EvalUnion, hE] at h ⊢
    cases oe with
    | some e2 => simp at h
    | none =>
      simp only at h ⊢
      exact ih r1 h

theorem EvalUnion_single_fst (e : JsonVal) (src : Col) (r : ResultSet) :
    (EvalUnion [e] src r).1 = (evalQuery e src r).1 := by
  rcases hE : evalQuery e src r with ⟨r1, oe⟩
  simp only [EvalUnion, hE]
  cases oe <;> simp [EvalUnion]

theorem evalQuery_ok_shift {q : JsonVal} {src : Col}
    (hadd : additive q = true) (hok : (evalQuery q src ∅).2 = none)
    (r : ResultSet) :
    evalQuery q src r = (r ∪ (evalQuery q src ∅).1, none) := by
  rw [evalQuery_additive_shift (sizeOf q) q src r le_rfl hadd, hok]

/-- C3 counterexample: appending the intersection sub-expression
`{"n": ["3"]}` to the error-free union `["1", "2"]` shrinks the final
Result Set from two elements to one, because Intersect's first iteration
replaces the running set outright. -/
theorem union_monotone_ctrex :
    EvalUnion [.str "1", .str "2"] trivCol ∅ = ({1, 2}, none) ∧
    EvalUnion [.str "1", .str "2", .obj [("n", .arr [.str "3"])]] trivCol ∅
      = ({3}, none) ∧
    ({3} : ResultSet).card < ({1, 2} : ResultSet).card := by
  refine ⟨?_, ?_, by decide⟩
  · simp [EvalUnion, evalQuery, parseInt64, digitsVal]
    decide
  · simp [EvalUnion, evalQuery, Intersect, intersectLoop, parseInt64,
      digitsVal, lookupField]

/-- C3 (amended): appending an additive sub-expression — one containing no
intersection (`n`) or complement (`c`) operator at any level — to an
error-free union never shrinks the final Result Set, and two additive
error-free sub-expressions may be evaluated in either order with the same
outcome; appending an intersection or complement sub-expression can shrink
the result, since those operators replace the running set. -/
theorem union_append_additive (exprs : List JsonVal) (e : JsonVal)
    (src : Col) (r0 : ResultSet) (hadd : additive e = true)
    (hok : (EvalUnion exprs src r0).2 = none) :
    (EvalUnion exprs src r0).1 ⊆ (EvalUnion (exprs ++ [e]) src r0).1 ∧
    (EvalUnion exprs src r0).1.card
      ≤ (EvalUnion (exprs ++ [e]) src r0).1.card ∧
    (∀ a b : JsonVal, additive a = true → additive b = true →
      (evalQuery a src ∅).2 = none → (evalQuery b src ∅).2 = none →
      EvalUnion [a, b] src r0 = EvalUnion [b, a] src r0) := by
  have hsub : (EvalUnion exprs src r0).1
      ⊆ (EvalUnion (exprs ++ [e]) src r0).1 := by
    rw [EvalUnion_append_ok exprs [e] src r0 hok, EvalUnion_single_fst]
    rw [evalQuery_additive_shift (sizeOf e) e src _ le_rfl hadd]
    exact Finset.subset_union_left
  refine ⟨hsub, Finset.card_le_card hsub, ?_⟩
  intro a b ha hb hea heb
  have hstep : ∀ (x y : JsonVal), additive x = true → additive y = true →
      (evalQuery x src ∅).2 = none → (evalQuery y src ∅).2 = none →
      EvalUnion [x, y] src r0 =
        ((r0 ∪ (evalQuery x src ∅).1) ∪ (evalQuery y src ∅).1, none) := by
    intro x y hx hy hex hey
    rw [EvalUnion, evalQuery_ok_shift hx hex r0]
    simp only
    rw [EvalUnion, evalQuery_ok_shift hy hey (r0 ∪ (evalQuery x src ∅).1)]
    simp [EvalUnion]
  rw [hstep a b ha hb hea heb, hstep b a hb ha heb hea]
  rw [Finset.union_assoc, Finset.union_assoc,
    Finset.union_comm (evalQuery a src ∅).1 (evalQuery b src ∅).1]

/-- C3 witness: on the trivial collection, appending `"2"` to the union
`["1"]` keeps `{1}` inside the result, and the additive literals `"1"`,
`"2"` commute. -/
theorem union_append_additive_witness :
    (EvalUnion [.str "1"] trivCol ∅).1
      ⊆ (EvalUnion [.str "1", .str "2"] trivCol ∅).1 ∧
    (EvalUnion [.str "1"] trivCol ∅).1.card
      ≤ (EvalUnion [.str "1", .str "2"] trivCol ∅).1.card ∧
    EvalUnion [.str "1", .str "2"] trivCol ∅
      = EvalUnion [.str "2", .str "1"] trivCol ∅ := by
  have h := union_append_additive [.str "1"] (.str "2") trivCol ∅
    (by simp [additive]) (by simp [EvalUnion, evalQuery, parseInt64, digitsVal])
  exact ⟨h.1, h.2.1, h.2.2 (.str "1") (.str "2") (by simp [additive])
    (by simp [additive]) (by simp [evalQuery, parseInt64, digitsVal])
    (by simp [evalQuery, parseInt64, digitsVal])⟩

end DB
